import Mathlib

/-!
Verification of the solapp pool-discovery-and-multiplier-tracking pipeline.

The definitions below are a shallow embedding of the Python sources:
`src/storage.py` (the token ledger over the SQLite table `tokens`),
`src/main.py` (`process_new_token`, `monitor_multipliers`,
`FILTER_MSG_TEMPLATE`), `src/metrics.py` (`get_top_holders_percent`,
`derive_base_mint_from_tx`) and `src/solana_watcher.py`
(`_extract_pool_creation`).  The SQLite table is modelled as a list of
rows in rowid order; `REAL` columns and Python floats are modelled as ℚ;
network lookups (price, market cap) are passed in as explicit oracle
arguments.
-/

/-- One row of the `tokens` table
(`mint TEXT PRIMARY KEY, symbol TEXT, name TEXT, initial_mc_usd REAL,
last_multiple INTEGER DEFAULT 1`), see `src/storage.py`. -/
structure TokenRecord where
  mint : String
  symbol : String
  name : String
  initial_mc_usd : ℚ
  last_multiple : ℤ
  deriving DecidableEq

/-- The `tokens` table, rows in rowid order. -/
abbrev Ledger := List TokenRecord

/-- Embeds `storage.upsert_token`: `INSERT ... VALUES (?, ?, ?, ?, 1)
ON CONFLICT(mint) DO UPDATE SET symbol=excluded.symbol, name=excluded.name`.
A conflict happens exactly when a row with the same `mint` primary key
already exists; then only `symbol` and `name` are overwritten. -/
def upsert_token (db : Ledger) (mint symbol nm : String) (initial_mc_usd : ℚ) : Ledger :=
  if db.any (fun r => r.mint == mint) then
    db.map (fun r =>
      if r.mint == mint then { r with symbol := symbol, name := nm } else r)
  else
    db ++ [{ mint := mint, symbol := symbol, name := nm,
             initial_mc_usd := initial_mc_usd, last_multiple := 1 }]

/-- Embeds `storage.get_token`: `SELECT ... FROM tokens WHERE mint=?` returning the
first matching row or `None`. -/
def get_token (db : Ledger) (mint : String) : Option TokenRecord :=
  db.find? (fun r => r.mint == mint)

/-- Embeds `storage.update_last_multiple`: `UPDATE tokens SET last_multiple=?
WHERE mint=?` — unconditional overwrite of the matching rows, no insert. -/
def update_last_multiple (db : Ledger) (mint : String) (multiple : ℤ) : Ledger :=
  db.map (fun r => if r.mint == mint then { r with last_multiple := multiple } else r)

/- ### Generic ledger lemmas -/

theorem find?_map_mint_preserving (db : Ledger) (g : TokenRecord → TokenRecord)
    (hg : ∀ r, (g r).mint = r.mint) (m : String) :
    List.find? (fun r => r.mint == m) (db.map g)
      = Option.map g (List.find? (fun r => r.mint == m) db) := by
  rw [List.find?_map]
  have hcomp : ((fun r => r.mint == m) ∘ g) = fun r => r.mint == m := by
    funext r
    simp [Function.comp, hg]
  rw [hcomp]

theorem get_token_update_last_multiple (db : Ledger) (m m' : String) (k : ℤ) :
    get_token (update_last_multiple db m' k) m
      = Option.map (fun r => if r.mint == m' then { r with last_multiple := k } else r)
          (get_token db m) := by
  unfold get_token update_last_multiple
  exact find?_map_mint_preserving db _ (fun r => by split <;> rfl) m

theorem get_token_update_last_multiple_ne (db : Ledger) (m m' : String) (k : ℤ)
    (hne : m ≠ m') :
    get_token (update_last_multiple db m' k) m = get_token db m := by
  rw [get_token_update_last_multiple]
  cases hfind : get_token db m with
  | none => rfl
  | some r =>
    have hr : r.mint = m := by
      have := List.find?_some hfind
      simpa using this
    simp [hr, hne]

theorem get_token_update_last_multiple_self (db : Ledger) (m : String) (k : ℤ) :
    get_token (update_last_multiple db m k) m
      = Option.map (fun r => { r with last_multiple := k }) (get_token db m) := by
  rw [get_token_update_last_multiple]
  cases hfind : get_token db m with
  | none => rfl
  | some r =>
    have hr : r.mint = m := by
      have := List.find?_some hfind
      simpa using this
    simp [hr]

theorem mints_update_last_multiple (db : Ledger) (m : String) (k : ℤ) :
    (update_last_multiple db m k).map (fun r => r.mint) = db.map (fun r => r.mint) := by
  unfold update_last_multiple
  rw [List.map_map]
  congr 1
  funext r
  show (if r.mint == m then { r with last_multiple := k } else r).mint = r.mint
  split <;> rfl

theorem get_token_of_mem_nodup (db : Ledger) (r : TokenRecord)
    (hnd : (db.map (fun x => x.mint)).Nodup) (hr : r ∈ db) :
    get_token db r.mint = some r := by
  induction db with
  | nil => cases hr
  | cons a rest ih =>
    rcases List.mem_cons.mp hr with h | h
    · subst h
      simp [get_token, List.find?_cons]
    · have hne : a.mint ≠ r.mint := by
        intro he
        have : r.mint ∈ rest.map (fun x => x.mint) := List.mem_map_of_mem _ h
        rw [List.map_cons] at hnd
        exact (List.nodup_cons.mp hnd).1 (he ▸ this)
      have hrest := ih (by rw [List.map_cons] at hnd; exact (List.nodup_cons.mp hnd).2) h
      simpa [get_token, List.find?_cons, hne] using hrest

theorem upsert_get_present (db : Ledger) (mint sym nm : String) (mc : ℚ)
    (r : TokenRecord) (hfind : get_token db mint = some r) :
    get_token (upsert_token db mint sym nm mc) mint
      = some { r with symbol := sym, name := nm } := by
  have hmem : r ∈ db := List.mem_of_find?_eq_some hfind
  have hmint : r.mint = mint := by
    have := List.find?_some hfind
    simpa using this
  have hany : db.any (fun r => r.mint == mint) = true :=
    List.any_eq_true.mpr ⟨r, hmem, by simp [hmint]⟩
  unfold upsert_token
  rw [if_pos hany]
  unfold get_token
  rw [find?_map_mint_preserving db _ (fun r => by split <;> rfl) mint]
  rw [show List.find? (fun r => r.mint == mint) db = some r from hfind]
  simp [hmint]

theorem upsert_get_absent (db : Ledger) (mint sym nm : String) (mc : ℚ)
    (hfind : get_token db mint = none) :
    get_token (upsert_token db mint sym nm mc) mint
      = some { mint := mint, symbol := sym, name := nm,
               initial_mc_usd := mc, last_multiple := 1 } := by
  have hall : ∀ x ∈ db, ¬(x.mint == mint) = true := List.find?_eq_none.mp hfind
  have hany : db.any (fun r => r.mint == mint) = false := by
    rw [List.any_eq_false]
    exact hall
  unfold upsert_token
  rw [if_neg (by simp [hany])]
  unfold get_token
  rw [List.find?_append]
  rw [List.find?_eq_none.mpr hall]
  simp

theorem upsert_get_other (db : Ledger) (mint sym nm : String) (mc : ℚ)
    (m : String) (hm : m ≠ mint) :
    get_token (upsert_token db mint sym nm mc) m = get_token db m := by
  unfold upsert_token
  split
  · unfold get_token
    rw [find?_map_mint_preserving db _ (fun r => by split <;> rfl) m]
    cases hfind : List.find? (fun r => r.mint == m) db with
    | none => rfl
    | some r =>
      have hr : r.mint = m := by
        have := List.find?_some hfind
        simpa using this
      have hne : ¬ (r.mint == mint) = true := by simp [hr, hm]
      show some (if r.mint == mint then { r with symbol := sym, name := nm } else r)
        = some r
      rw [if_neg hne]
  · unfold get_token
    rw [List.find?_append]
    have hnone : List.find? (fun r => r.mint == m)
        ([{ mint := mint, symbol := sym, name := nm,
            initial_mc_usd := mc, last_multiple := 1 }] : Ledger) = none := by
      simp [List.find?_cons, Ne.symm hm]
    rw [hnone]
    cases List.find? (fun r => r.mint == m) db <;> rfl

theorem upsert_mints_nodup (db : Ledger) (mint sym nm : String) (mc : ℚ)
    (hnd : (db.map (fun x => x.mint)).Nodup) :
    ((upsert_token db mint sym nm mc).map (fun x => x.mint)).Nodup := by
  unfold upsert_token
  split
  · rw [List.map_map]
    have hcomp : ((fun x : TokenRecord => x.mint)
        ∘ fun r => if r.mint == mint then { r with symbol := sym, name := nm } else r)
        = fun r : TokenRecord => r.mint := by
      funext r
      show (if r.mint == mint then { r with symbol := sym, name := nm } else r).mint = r.mint
      split <;> rfl
    rw [hcomp]
    exact hnd
  · rename_i hany
    have hnotmem : mint ∉ db.map (fun x => x.mint) := by
      intro hmem
      rcases List.mem_map.mp hmem with ⟨r, hr, hrm⟩
      exact hany (List.any_eq_true.mpr ⟨r, hr, by simp [hrm]⟩)
    have hconc : ((db.map (fun x => x.mint)) ++ [mint]).Nodup := by
      rw [List.nodup_append]
      refine ⟨hnd, List.nodup_singleton mint, ?_⟩
      intro a ha hb
      rw [List.mem_singleton] at hb
      exact hnotmem (hb ▸ ha)
    simpa [List.map_append] using hconc

/- ### C3 and C10 -/

/-- C3: upsert of a mint already present updates only `symbol` and `name`,
leaving `initial_mc_usd` and `last_multiple` (and the key) unchanged; upsert
of an absent mint inserts a fresh record with `last_multiple = 1`. -/
theorem upsert_token_spec (db : Ledger) (mint sym nm : String) (mc : ℚ) :
    (∀ r, get_token db mint = some r →
      get_token (upsert_token db mint sym nm mc) mint
        = some { r with symbol := sym, name := nm })
    ∧ (get_token db mint = none →
      get_token (upsert_token db mint sym nm mc) mint
        = some { mint := mint, symbol := sym, name := nm,
                 initial_mc_usd := mc, last_multiple := 1 }) :=
  ⟨fun r hfind => upsert_get_present db mint sym nm mc r hfind,
   fun hfind => upsert_get_absent db mint sym nm mc hfind⟩

/-- C3 witness at a concrete ledger. -/
theorem upsert_token_spec_witness :
    get_token [⟨"m1", "OLD", "Old Name", 1000, 3⟩] "m1"
        = some ⟨"m1", "OLD", "Old Name", 1000, 3⟩
    ∧ get_token (upsert_token [⟨"m1", "OLD", "Old Name", 1000, 3⟩] "m1" "NEW" "New Name" 777) "m1"
        = some ⟨"m1", "NEW", "New Name", 1000, 3⟩
    ∧ get_token ([] : Ledger) "m2" = none
    ∧ get_token (upsert_token [] "m2" "S" "N" 500) "m2" = some ⟨"m2", "S", "N", 500, 1⟩ := by
  refine ⟨by rfl, ?_, by rfl, ?_⟩
  · exact (upsert_token_spec [⟨"m1", "OLD", "Old Name", 1000, 3⟩] "m1" "NEW" "New Name" 777).1
      ⟨"m1", "OLD", "Old Name", 1000, 3⟩ (by rfl)
  · exact (upsert_token_spec [] "m2" "S" "N" 500).2 (by rfl)

/-- C10: `update_last_multiple` on an absent mint leaves the table exactly as
it was (no insert, no modification); on any table it preserves the number of
rows and, row by row, every field except that the `last_multiple` of the rows
whose mint matches is overwritten with the new value. -/
theorem update_last_multiple_frame (db : Ledger) (m : String) (k : ℤ) :
    (get_token db m = none → update_last_multiple db m k = db)
    ∧ (update_last_multiple db m k).length = db.length
    ∧ (∀ (i : ℕ) (hi : i < db.length) (hi' : i < (update_last_multiple db m k).length),
        ((update_last_multiple db m k).get ⟨i, hi'⟩).mint = (db.get ⟨i, hi⟩).mint
        ∧ ((update_last_multiple db m k).get ⟨i, hi'⟩).symbol = (db.get ⟨i, hi⟩).symbol
        ∧ ((update_last_multiple db m k).get ⟨i, hi'⟩).name = (db.get ⟨i, hi⟩).name
        ∧ ((update_last_multiple db m k).get ⟨i, hi'⟩).initial_mc_usd
            = (db.get ⟨i, hi⟩).initial_mc_usd
        ∧ ((db.get ⟨i, hi⟩).mint ≠ m →
            ((update_last_multiple db m k).get ⟨i, hi'⟩).last_multiple
              = (db.get ⟨i, hi⟩).last_multiple)
        ∧ ((db.get ⟨i, hi⟩).mint = m →
            ((update_last_multiple db m k).get ⟨i, hi'⟩).last_multiple = k)) := by
  refine ⟨?_, by simp [update_last_multiple], ?_⟩
  · intro hfind
    have hall : ∀ x ∈ db, ¬(x.mint == m) = true := List.find?_eq_none.mp hfind
    unfold update_last_multiple
    have : ∀ x ∈ db,
        (if x.mint == m then { x with last_multiple := k } else x) = x := by
      intro x hx
      rw [if_neg (hall x hx)]
    calc db.map _ = db.map id := List.map_congr_left (by simpa using this)
      _ = db := List.map_id db
  · intro i hi hi'
    have hget : (update_last_multiple db m k).get ⟨i, hi'⟩
        = (fun r => if r.mint == m then { r with last_multiple := k } else r)
            (db.get ⟨i, hi⟩) := by
      simp [update_last_multiple, List.get_eq_getElem, List.getElem_map]
    by_cases hc : (db.get ⟨i, hi⟩).mint = m
    · rw [hget]
      simp only [List.get_eq_getElem] at hc ⊢
      simp [hc]
    · rw [hget]
      simp only [List.get_eq_getElem] at hc ⊢
      simp [hc]

/-- C10 witness: update of an absent mint is a no-op; update of a present
mint rewrites only its `last_multiple`. -/
theorem update_last_multiple_frame_witness :
    get_token [⟨"a", "A", "An", 100, 1⟩] "zz" = none
    ∧ update_last_multiple [⟨"a", "A", "An", 100, 1⟩] "zz" 9 = [⟨"a", "A", "An", 100, 1⟩]
    ∧ ((update_last_multiple [⟨"a", "A", "An", 100, 1⟩] "a" 9).get
        ⟨0, by simp [update_last_multiple]⟩).last_multiple = 9 := by
  refine ⟨by rfl, ?_, ?_⟩
  · exact (update_last_multiple_frame [⟨"a", "A", "An", 100, 1⟩] "zz" 9).1 (by rfl)
  · exact ((update_last_multiple_frame [⟨"a", "A", "An", 100, 1⟩] "a" 9).2.2 0
      (by simp) (by simp [update_last_multiple])).2.2.2.2.2 (by rfl)

/- ### Admission evaluator (`main.process_new_token`) -/

/-- The two admission thresholds of `config.Settings`
(`min_market_cap_usd`, default 15000; `max_top10_holder_percent`, default 20). -/
structure Settings where
  min_market_cap_usd : ℚ
  max_top10_holder_percent : ℚ
  deriving DecidableEq

/-- The data substituted into the admission alert and handed to the ledger:
the validated `(mint, market_cap_usd, top10_percent)` triple. -/
structure AdmitNotif where
  mint : String
  market_cap_usd : ℚ
  top10_percent : ℚ
  deriving DecidableEq

/-- Embeds `main.process_new_token`, with the external lookups passed in:
`mintOpt` is the result of `derive_base_mint_from_tx`, `priceOpt` the result
of `fetch_price_usd_for_mint` (then coalesced with `or 0.0`), `mc` the result
of `compute_market_cap_usd`, and `top10` the result of
`get_top_holders_percent`.  Returns the ledger after the call and the
admission notification, if one was sent. -/
def process_new_token (s : Settings) (db : Ledger) (mintOpt : Option String)
    (priceOpt : Option ℚ) (mc top10 : ℚ) : Ledger × Option AdmitNotif :=
  match mintOpt with
  | none => (db, none)
  | some mint =>
    let price := priceOpt.getD 0
    if price ≤ 0 then (db, none)
    else if mc < s.min_market_cap_usd then (db, none)
    else if top10 > s.max_top10_holder_percent then (db, none)
    else (upsert_token db mint "?" "?" mc,
          some { mint := mint, market_cap_usd := mc, top10_percent := top10 })

/-- C2: with a resolved mint and an available spot price > 0, the admission
evaluator persists the token and emits the notification exactly when
`market_cap ≥ min_market_cap_usd` and `top10 ≤ max_top10_holder_percent`
(both boundaries included), and otherwise leaves the ledger untouched and
notifies nothing. -/
theorem process_new_token_gates (s : Settings) (db : Ledger) (mint : String)
    (priceOpt : Option ℚ) (p : ℚ) (mc top10 : ℚ)
    (hp : priceOpt = some p) (hppos : 0 < p) :
    (s.min_market_cap_usd ≤ mc ∧ top10 ≤ s.max_top10_holder_percent →
      process_new_token s db (some mint) priceOpt mc top10
        = (upsert_token db mint "?" "?" mc,
           some { mint := mint, market_cap_usd := mc, top10_percent := top10 }))
    ∧ (mc < s.min_market_cap_usd ∨ s.max_top10_holder_percent < top10 →
      process_new_token s db (some mint) priceOpt mc top10 = (db, none)) := by
  subst hp
  unfold process_new_token
  simp only [Option.getD_some]
  rw [if_neg (not_le.mpr hppos)]
  constructor
  · rintro ⟨h1, h2⟩
    rw [if_neg (not_lt.mpr h1), if_neg (not_lt.mpr h2)]
  · rintro (h | h)
    · rw [if_pos h]
    · by_cases h1 : mc < s.min_market_cap_usd
      · rw [if_pos h1]
      · rw [if_neg h1, if_pos h]

/-- C2 witness: both boundary values pass (market cap exactly at the minimum,
top-10 exactly at the maximum), and a market cap just below the minimum is
rejected without a ledger write. -/
theorem process_new_token_gates_witness :
    process_new_token ⟨15000, 20⟩ [] (some "m") (some 1) 15000 20
      = (upsert_token [] "m" "?" "?" 15000, some ⟨"m", 15000, 20⟩)
    ∧ process_new_token ⟨15000, 20⟩ [] (some "m") (some 1) 14999 20 = ([], none) :=
  ⟨(process_new_token_gates ⟨15000, 20⟩ [] "m" (some 1) 1 15000 20 rfl (by norm_num)).1
      (by norm_num),
   (process_new_token_gates ⟨15000, 20⟩ [] "m" (some 1) 1 14999 20 rfl (by norm_num)).2
      (Or.inl (by norm_num))⟩

/- ### Multiplier scanner (`main.monitor_multipliers`) -/

/-- The data substituted into the milestone alert
`f"{mint} reached {hit}x (${mc/1000:.2f}K MC)"`. -/
structure ScanNotif where
  mint : String
  hit : ℤ
  market_cap_usd : ℚ
  deriving DecidableEq

/-- The body of the row loop in `main.monitor_multipliers`, for one fetched
row `r`: `priceOpt` is the result of `fetch_price_usd_for_mint(mint)`
(coalesced with `or 0.0`), `mcOf price` the result of
`compute_market_cap_usd(client, mint, price)`.  Returns `some (hit, mc)`
when the row notifies and persists `last_multiple = hit`, `none` when the
row is skipped untouched. -/
def scanRow (priceOpt : Option ℚ) (mcOf : ℚ → ℚ) (r : TokenRecord) : Option (ℤ × ℚ) :=
  let price := priceOpt.getD 0
  if price ≤ 0 then none
  else
    let mc := mcOf price
    if r.initial_mc_usd ≤ 0 then none
    else
      let multiple_float := mc / r.initial_mc_usd
      let target := max (r.last_multiple + 1) 2
      let hit := ⌊multiple_float⌋
      if target ≤ hit then some (hit, mc) else none

/-- The row loop of one sweep: `rows` were fetched once at the start of the
sweep; the table `db` is updated as fired rows call `update_last_multiple`,
and the sent milestone notifications are collected in order. -/
def sweepGo (priceOf : String → Option ℚ) (mcOf : String → ℚ → ℚ) :
    List TokenRecord → Ledger → List ScanNotif → Ledger × List ScanNotif
  | [], db, out => (db, out)
  | row :: rest, db, out =>
    match scanRow (priceOf row.mint) (mcOf row.mint) row with
    | some hm =>
        sweepGo priceOf mcOf rest (update_last_multiple db row.mint hm.1)
          (out ++ [{ mint := row.mint, hit := hm.1, market_cap_usd := hm.2 }])
    | none => sweepGo priceOf mcOf rest db out

/-- One sweep of `main.monitor_multipliers`: `SELECT mint, initial_mc_usd,
last_multiple FROM tokens` fetches all rows, then the loop body runs on each
row in order. -/
def monitor_multipliers_sweep (priceOf : String → Option ℚ)
    (mcOf : String → ℚ → ℚ) (db : Ledger) : Ledger × List ScanNotif :=
  sweepGo priceOf mcOf db db []

/-- The notification one fetched row contributes to a sweep, if any. -/
def scanNotifOf (priceOf : String → Option ℚ) (mcOf : String → ℚ → ℚ)
    (row : TokenRecord) : Option ScanNotif :=
  (scanRow (priceOf row.mint) (mcOf row.mint) row).map
    (fun hm => { mint := row.mint, hit := hm.1, market_cap_usd := hm.2 })

theorem scanNotifOf_mint (priceOf : String → Option ℚ) (mcOf : String → ℚ → ℚ)
    (row : TokenRecord) (n : ScanNotif)
    (h : scanNotifOf priceOf mcOf row = some n) : n.mint = row.mint := by
  unfold scanNotifOf at h
  cases hs : scanRow (priceOf row.mint) (mcOf row.mint) row with
  | none => rw [hs] at h; cases h
  | some hm =>
    rw [hs] at h
    cases h
    rfl

theorem scanNotifOf_eq_none (priceOf : String → Option ℚ) (mcOf : String → ℚ → ℚ)
    (row : TokenRecord) (hs : scanRow (priceOf row.mint) (mcOf row.mint) row = none) :
    scanNotifOf priceOf mcOf row = none := by
  unfold scanNotifOf
  rw [hs]
  rfl

theorem scanNotifOf_eq_some (priceOf : String → Option ℚ) (mcOf : String → ℚ → ℚ)
    (row : TokenRecord) (hm : ℤ × ℚ)
    (hs : scanRow (priceOf row.mint) (mcOf row.mint) row = some hm) :
    scanNotifOf priceOf mcOf row
      = some { mint := row.mint, hit := hm.1, market_cap_usd := hm.2 } := by
  unfold scanNotifOf
  rw [hs]
  rfl

theorem sweepGo_cons_none (priceOf : String → Option ℚ) (mcOf : String → ℚ → ℚ)
    (row : TokenRecord) (rest : List TokenRecord) (db : Ledger) (out : List ScanNotif)
    (hs : scanRow (priceOf row.mint) (mcOf row.mint) row = none) :
    sweepGo priceOf mcOf (row :: rest) db out = sweepGo priceOf mcOf rest db out := by
  simp only [sweepGo]
  rw [hs]

theorem sweepGo_cons_some (priceOf : String → Option ℚ) (mcOf : String → ℚ → ℚ)
    (row : TokenRecord) (rest : List TokenRecord) (db : Ledger) (out : List ScanNotif)
    (hm : ℤ × ℚ) (hs : scanRow (priceOf row.mint) (mcOf row.mint) row = some hm) :
    sweepGo priceOf mcOf (row :: rest) db out
      = sweepGo priceOf mcOf rest (update_last_multiple db row.mint hm.1)
          (out ++ [{ mint := row.mint, hit := hm.1, market_cap_usd := hm.2 }]) := by
  simp only [sweepGo]
  rw [hs]

theorem sweepGo_snd (priceOf : String → Option ℚ) (mcOf : String → ℚ → ℚ)
    (rows : List TokenRecord) (db : Ledger) (out : List ScanNotif) :
    (sweepGo priceOf mcOf rows db out).2
      = out ++ rows.filterMap (scanNotifOf priceOf mcOf) := by
  induction rows generalizing db out with
  | nil => simp [sweepGo]
  | cons row rest ih =>
    rw [List.filterMap_cons]
    cases hs : scanRow (priceOf row.mint) (mcOf row.mint) row with
    | none =>
      rw [sweepGo_cons_none priceOf mcOf row rest db out hs]
      rw [scanNotifOf_eq_none priceOf mcOf row hs]
      exact ih db out
    | some hm =>
      rw [sweepGo_cons_some priceOf mcOf row rest db out hm hs]
      rw [scanNotifOf_eq_some priceOf mcOf row hm hs]
      rw [ih]
      simp

theorem sweepGo_fst_get_token_notmem (priceOf : String → Option ℚ)
    (mcOf : String → ℚ → ℚ) (rows : List TokenRecord) (db : Ledger)
    (out : List ScanNotif) (m : String) (hm : ∀ row ∈ rows, row.mint ≠ m) :
    get_token (sweepGo priceOf mcOf rows db out).1 m = get_token db m := by
  induction rows generalizing db out with
  | nil => rfl
  | cons row rest ih =>
    unfold sweepGo
    cases hs : scanRow (priceOf row.mint) (mcOf row.mint) row with
    | none => exact ih db out (fun x hx => hm x (List.mem_cons_of_mem _ hx))
    | some hm' =>
      rw [ih (update_last_multiple db row.mint hm'.1) _
        (fun x hx => hm x (List.mem_cons_of_mem _ hx))]
      exact get_token_update_last_multiple_ne db m row.mint hm'.1
        (fun he => hm row (List.mem_cons_self _ _) he.symm)

theorem filterMap_scanNotif_notmem (priceOf : String → Option ℚ)
    (mcOf : String → ℚ → ℚ) (rows : List TokenRecord) (m : String)
    (hm : m ∉ rows.map (fun r => r.mint)) :
    (rows.filterMap (scanNotifOf priceOf mcOf)).filter (fun n => n.mint == m) = [] := by
  induction rows with
  | nil => rfl
  | cons row rest ih =>
    rw [List.map_cons] at hm
    have h1 : row.mint ≠ m := fun he => hm (he ▸ List.mem_cons_self _ _)
    have h2 : m ∉ rest.map (fun r => r.mint) := fun hmem => hm (List.mem_cons_of_mem _ hmem)
    rw [List.filterMap_cons]
    cases hs : scanNotifOf priceOf mcOf row with
    | none => exact ih h2
    | some n =>
      have : n.mint = row.mint := scanNotifOf_mint priceOf mcOf row n hs
      rw [List.filter_cons]
      have hfalse : ¬ (n.mint == m) = true := by simp [this, h1]
      rw [if_neg (by simpa using hfalse)]
      exact ih h2

theorem filterMap_scanNotif_self (priceOf : String → Option ℚ)
    (mcOf : String → ℚ → ℚ) (rows : List TokenRecord) (r : TokenRecord)
    (hnd : (rows.map (fun x => x.mint)).Nodup) (hr : r ∈ rows) :
    (rows.filterMap (scanNotifOf priceOf mcOf)).filter (fun n => n.mint == r.mint)
      = (scanNotifOf priceOf mcOf r).toList := by
  induction rows with
  | nil => cases hr
  | cons row rest ih =>
    rw [List.map_cons, List.nodup_cons] at hnd
    rcases List.mem_cons.mp hr with h | h
    · subst h
      have hnotmem : r.mint ∉ rest.map (fun x => x.mint) := hnd.1
      rw [List.filterMap_cons]
      cases hs : scanNotifOf priceOf mcOf r with
      | none =>
        simpa using filterMap_scanNotif_notmem priceOf mcOf rest r.mint hnotmem
      | some n =>
        have hn : n.mint = r.mint := scanNotifOf_mint priceOf mcOf r n hs
        rw [List.filter_cons]
        rw [if_pos (by simp [hn])]
        rw [filterMap_scanNotif_notmem priceOf mcOf rest r.mint hnotmem]
        rfl
    · have hne : row.mint ≠ r.mint := by
        intro he
        exact hnd.1 (he ▸ List.mem_map_of_mem _ h)
      rw [List.filterMap_cons]
      cases hs : scanNotifOf priceOf mcOf row with
      | none => exact ih hnd.2 h
      | some n =>
        have hn : n.mint = row.mint := scanNotifOf_mint priceOf mcOf row n hs
        rw [List.filter_cons]
        rw [if_neg (by simp [hn, hne])]
        exact ih hnd.2 h

/-- What one sweep does to a given row of the table, assuming the `mint`
primary-key uniqueness invariant: the sweep's notification list contains
exactly the row's own contribution, and the row ends up updated exactly when
its evaluation fired. -/
theorem sweep_record (priceOf : String → Option ℚ) (mcOf : String → ℚ → ℚ)
    (db : Ledger) (r : TokenRecord)
    (hnd : (db.map (fun x => x.mint)).Nodup) (hr : r ∈ db) :
    (monitor_multipliers_sweep priceOf mcOf db).2.filter (fun n => n.mint == r.mint)
        = (scanNotifOf priceOf mcOf r).toList
    ∧ get_token (monitor_multipliers_sweep priceOf mcOf db).1 r.mint
        = some (match scanRow (priceOf r.mint) (mcOf r.mint) r with
                | some hm => { r with last_multiple := hm.1 }
                | none => r) := by
  constructor
  · rw [monitor_multipliers_sweep, sweepGo_snd]
    simpa using filterMap_scanNotif_self priceOf mcOf db r hnd hr
  · rw [monitor_multipliers_sweep]
    -- peel the rows before r, handle r, then the rows after r
    suffices h : ∀ (rows : List TokenRecord) (db' : Ledger) (out : List ScanNotif),
        (rows.map (fun x => x.mint)).Nodup → r ∈ rows →
        get_token db' r.mint = some r →
        get_token (sweepGo priceOf mcOf rows db' out).1 r.mint
          = some (match scanRow (priceOf r.mint) (mcOf r.mint) r with
                  | some hm => { r with last_multiple := hm.1 }
                  | none => r) by
      exact h db db [] hnd hr (get_token_of_mem_nodup db r hnd hr)
    intro rows
    induction rows with
    | nil => intro db' out _ hmem _; cases hmem
    | cons row rest ih =>
      intro db' out hnd' hmem hget
      rw [List.map_cons, List.nodup_cons] at hnd'
      rcases List.mem_cons.mp hmem with h | h
      · subst h
        have hrest : ∀ x ∈ rest, x.mint ≠ r.mint := by
          intro x hx he
          exact hnd'.1 (he ▸ List.mem_map_of_mem _ hx)
        unfold sweepGo
        cases hs : scanRow (priceOf r.mint) (mcOf r.mint) r with
        | none =>
          rw [sweepGo_fst_get_token_notmem priceOf mcOf rest db' out r.mint hrest]
          exact hget
        | some hm =>
          rw [sweepGo_fst_get_token_notmem priceOf mcOf rest _ _ r.mint hrest]
          rw [get_token_update_last_multiple_self db' r.mint hm.1]
          rw [hget]
          rfl
      · have hne : row.mint ≠ r.mint := by
          intro he
          exact hnd'.1 (he ▸ List.mem_map_of_mem _ h)
        unfold sweepGo
        cases hs : scanRow (priceOf row.mint) (mcOf row.mint) row with
        | none => exact ih _ out hnd'.2 h hget
        | some hm =>
          refine ih _ _ hnd'.2 h ?_
          rw [get_token_update_last_multiple_ne db' r.mint row.mint hm.1 (Ne.symm hne)]
          exact hget

theorem scanRow_eval (r : TokenRecord) (p : ℚ) (mcOf : ℚ → ℚ)
    (hppos : 0 < p) (hinit : 0 < r.initial_mc_usd) :
    scanRow (some p) mcOf r
      = (if max (r.last_multiple + 1) 2 ≤ ⌊mcOf p / r.initial_mc_usd⌋
         then some (⌊mcOf p / r.initial_mc_usd⌋, mcOf p) else none) := by
  unfold scanRow
  simp only [Option.getD_some]
  rw [if_neg (not_le.mpr hppos), if_neg (not_le.mpr hinit)]

theorem scanRow_skip_baseline (priceOpt : Option ℚ) (mcOf : ℚ → ℚ)
    (r : TokenRecord) (hinit : r.initial_mc_usd ≤ 0) :
    scanRow priceOpt mcOf r = none := by
  unfold scanRow
  split
  · show (if priceOpt.getD 0 ≤ 0 then (none : Option (ℤ × ℚ)) else none) = none
    split <;> rfl
  · rename_i hcontra
    exact absurd hinit hcontra

/-- C1: in one sweep, a record with a positive baseline and an available
positive price is evaluated as `ratio = mc / initial_mc_usd`,
`target = max (last_multiple + 1) 2`, `hit = ⌊ratio⌋`; exactly one
notification (carrying its mint, `hit` and the current market cap) is
emitted and `last_multiple = hit` is persisted if `hit ≥ target`, and
nothing is notified and the record is left unchanged if `hit < target`.
A jump across several integer multiples yields the single notification for
`hit = ⌊ratio⌋`, the highest multiple reached. -/
theorem monitor_multipliers_milestone (priceOf : String → Option ℚ)
    (mcOf : String → ℚ → ℚ) (db : Ledger) (r : TokenRecord) (p : ℚ)
    (hnd : (db.map (fun x => x.mint)).Nodup) (hr : r ∈ db)
    (hp : priceOf r.mint = some p) (hppos : 0 < p)
    (hinit : 0 < r.initial_mc_usd) :
    (max (r.last_multiple + 1) 2 ≤ ⌊mcOf r.mint p / r.initial_mc_usd⌋ →
      (monitor_multipliers_sweep priceOf mcOf db).2.filter (fun n => n.mint == r.mint)
          = [{ mint := r.mint, hit := ⌊mcOf r.mint p / r.initial_mc_usd⌋,
               market_cap_usd := mcOf r.mint p }]
      ∧ get_token (monitor_multipliers_sweep priceOf mcOf db).1 r.mint
          = some { r with last_multiple := ⌊mcOf r.mint p / r.initial_mc_usd⌋ })
    ∧ (⌊mcOf r.mint p / r.initial_mc_usd⌋ < max (r.last_multiple + 1) 2 →
      (monitor_multipliers_sweep priceOf mcOf db).2.filter (fun n => n.mint == r.mint)
          = []
      ∧ get_token (monitor_multipliers_sweep priceOf mcOf db).1 r.mint = some r) := by
  have hrec := sweep_record priceOf mcOf db r hnd hr
  have heval : scanRow (priceOf r.mint) (mcOf r.mint) r
      = (if max (r.last_multiple + 1) 2 ≤ ⌊mcOf r.mint p / r.initial_mc_usd⌋
         then some (⌊mcOf r.mint p / r.initial_mc_usd⌋, mcOf r.mint p) else none) := by
    rw [hp]
    exact scanRow_eval r p (mcOf r.mint) hppos hinit
  constructor
  · intro hfired
    rw [if_pos hfired] at heval
    have h1 := hrec.1
    rw [scanNotifOf_eq_some priceOf mcOf r _ heval] at h1
    have h2 := hrec.2
    rw [heval] at h2
    exact ⟨h1, h2⟩
  · intro hmiss
    rw [if_neg (not_le.mpr hmiss)] at heval
    have h1 := hrec.1
    rw [scanNotifOf_eq_none priceOf mcOf r heval] at h1
    have h2 := hrec.2
    rw [heval] at h2
    exact ⟨h1, h2⟩

/-- C1 witness: baseline 1000, `last_multiple = 1`, current market cap 2500 ⇒
`hit = ⌊2500/1000⌋ = 2 ≥ target = 2`: one notification `(m, 2, 2500)` and
`last_multiple` becomes 2; with current market cap 1800 and
`last_multiple = 2`, `hit = 1 < target = 3`: no notification, record
unchanged. -/
theorem monitor_multipliers_milestone_witness :
    ⌊(2500:ℚ)/1000⌋ = 2
    ∧ ((monitor_multipliers_sweep (fun _ => some 1) (fun _ _ => 2500)
        [⟨"m", "S", "N", 1000, 1⟩]).2.filter (fun n => n.mint == "m")
      = [⟨"m", ⌊(2500:ℚ)/1000⌋, 2500⟩]
    ∧ get_token (monitor_multipliers_sweep (fun _ => some 1) (fun _ _ => 2500)
        [⟨"m", "S", "N", 1000, 1⟩]).1 "m"
      = some ⟨"m", "S", "N", 1000, ⌊(2500:ℚ)/1000⌋⟩)
    ∧ ((monitor_multipliers_sweep (fun _ => some 1) (fun _ _ => 1800)
        [⟨"m", "S", "N", 1000, 2⟩]).2.filter (fun n => n.mint == "m") = []
    ∧ get_token (monitor_multipliers_sweep (fun _ => some 1) (fun _ _ => 1800)
        [⟨"m", "S", "N", 1000, 2⟩]).1 "m" = some ⟨"m", "S", "N", 1000, 2⟩) := by
  refine ⟨by norm_num, ?_, ?_⟩
  · exact (monitor_multipliers_milestone (fun _ => some 1) (fun _ _ => 2500)
      [⟨"m", "S", "N", 1000, 1⟩] ⟨"m", "S", "N", 1000, 1⟩ 1
      (by simp) (List.mem_singleton_self _) rfl (by norm_num) (by norm_num)).1
      (by norm_num)
  · exact (monitor_multipliers_milestone (fun _ => some 1) (fun _ _ => 1800)
      [⟨"m", "S", "N", 1000, 2⟩] ⟨"m", "S", "N", 1000, 2⟩ 1
      (by simp) (List.mem_singleton_self _) rfl (by norm_num) (by norm_num)).2
      (by norm_num)

theorem sweepGo_mints (priceOf : String → Option ℚ) (mcOf : String → ℚ → ℚ)
    (rows : List TokenRecord) (db : Ledger) (out : List ScanNotif) :
    ((sweepGo priceOf mcOf rows db out).1).map (fun x => x.mint)
      = db.map (fun x => x.mint) := by
  induction rows generalizing db out with
  | nil => rfl
  | cons row rest ih =>
    cases hs : scanRow (priceOf row.mint) (mcOf row.mint) row with
    | none =>
      rw [sweepGo_cons_none priceOf mcOf row rest db out hs]
      exact ih db out
    | some hm =>
      rw [sweepGo_cons_some priceOf mcOf row rest db out hm hs]
      rw [ih]
      exact mints_update_last_multiple db row.mint hm.1

/-- The scanner's endless loop: the `n`-th sweep runs with the `n`-th pair of
price and market-cap oracles (lookups may answer differently on every
sweep); `sweep_iter sch n db` is the table after the first `n` sweeps. -/
def sweep_iter (sch : ℕ → ((String → Option ℚ) × (String → ℚ → ℚ))) :
    ℕ → Ledger → Ledger
  | 0, db => db
  | n + 1, db =>
      (monitor_multipliers_sweep (sch n).1 (sch n).2 (sweep_iter sch n db)).1

/-- C8: a record whose baseline `initial_mc_usd` is ≤ 0 is skipped by the
row evaluation outright (whatever the price and market-cap lookups return),
and over any infinite run of sweeps it stays in the table completely
unchanged and never appears in any sweep's notifications. -/
theorem scanner_skips_nonpositive_baseline
    (sch : ℕ → ((String → Option ℚ) × (String → ℚ → ℚ))) (db : Ledger)
    (r : TokenRecord) (hnd : (db.map (fun x => x.mint)).Nodup) (hr : r ∈ db)
    (hinit : r.initial_mc_usd ≤ 0) :
    (∀ (priceOpt : Option ℚ) (mcOf : ℚ → ℚ), scanRow priceOpt mcOf r = none)
    ∧ ∀ n, r ∈ sweep_iter sch n db
      ∧ get_token (sweep_iter sch n db) r.mint = some r
      ∧ (monitor_multipliers_sweep (sch n).1 (sch n).2 (sweep_iter sch n db)).2.filter
          (fun x => x.mint == r.mint) = [] := by
  have key : ∀ n, r ∈ sweep_iter sch n db
      ∧ ((sweep_iter sch n db).map (fun x => x.mint)).Nodup := by
    intro n
    induction n with
    | zero => exact ⟨hr, hnd⟩
    | succ k ih =>
      have hrec := sweep_record (sch k).1 (sch k).2 (sweep_iter sch k db) r ih.2 ih.1
      have hskip : scanRow ((sch k).1 r.mint) ((sch k).2 r.mint) r = none :=
        scanRow_skip_baseline _ _ r hinit
      have hget := hrec.2
      rw [hskip] at hget
      constructor
      · exact List.mem_of_find?_eq_some hget
      · have hmints : (sweep_iter sch (k + 1) db).map (fun x => x.mint)
            = (sweep_iter sch k db).map (fun x => x.mint) := by
          show ((sweepGo (sch k).1 (sch k).2 (sweep_iter sch k db)
            (sweep_iter sch k db) []).1).map (fun x => x.mint) = _
          exact sweepGo_mints (sch k).1 (sch k).2 _ _ []
        rw [hmints]
        exact ih.2
  constructor
  · intro priceOpt mcOf
    exact scanRow_skip_baseline priceOpt mcOf r hinit
  · intro n
    obtain ⟨hmem, hnod⟩ := key n
    have hrec := sweep_record (sch n).1 (sch n).2 (sweep_iter sch n db) r hnod hmem
    have hskip : scanRow ((sch n).1 r.mint) ((sch n).2 r.mint) r = none :=
      scanRow_skip_baseline _ _ r hinit
    refine ⟨hmem, get_token_of_mem_nodup _ r hnod hmem, ?_⟩
    have h1 := hrec.1
    rw [scanNotifOf_eq_none _ _ r hskip] at h1
    simpa using h1

/-- C8 witness: a record with baseline 0 survives two sweeps untouched even
though the price and market-cap lookups succeed. -/
theorem scanner_skips_nonpositive_baseline_witness :
    scanRow (some 1) (fun _ => 5000) ⟨"z", "S", "N", 0, 1⟩ = none
    ∧ get_token (sweep_iter (fun _ => (fun _ => some 1, fun _ _ => 5000)) 2
        [⟨"z", "S", "N", 0, 1⟩]) "z" = some ⟨"z", "S", "N", 0, 1⟩ := by
  have h := scanner_skips_nonpositive_baseline
    (fun _ => (fun _ => some 1, fun _ _ => 5000)) [⟨"z", "S", "N", 0, 1⟩]
    ⟨"z", "S", "N", 0, 1⟩ (by simp) (List.mem_singleton_self _) (by norm_num)
  exact ⟨h.1 (some 1) (fun _ => 5000), (h.2 2).2.1⟩

theorem scanRow_def (priceOpt : Option ℚ) (mcOf : ℚ → ℚ) (r : TokenRecord) :
    scanRow priceOpt mcOf r
      = if priceOpt.getD 0 ≤ 0 then none
        else if r.initial_mc_usd ≤ 0 then none
        else if max (r.last_multiple + 1) 2
            ≤ ⌊mcOf (priceOpt.getD 0) / r.initial_mc_usd⌋
          then some (⌊mcOf (priceOpt.getD 0) / r.initial_mc_usd⌋, mcOf (priceOpt.getD 0))
          else none := rfl

theorem scanRow_fired (priceOpt : Option ℚ) (mcOf : ℚ → ℚ) (r : TokenRecord)
    (hm : ℤ × ℚ) (h : scanRow priceOpt mcOf r = some hm) :
    max (r.last_multiple + 1) 2 ≤ hm.1 := by
  rw [scanRow_def] at h
  split at h
  · cases h
  · split at h
    · cases h
    · split at h
      · rename_i hcond
        cases h
        exact hcond
      · cases h

/-- The two kinds of writes the program ever performs on the `tokens`
table: an admission attempt by the discovery path (`process_new_token`,
which may upsert) and one sweep of the multiplier scanner. -/
inductive LedgerStep : Ledger → Ledger → Prop where
  | admission (s : Settings) (mintOpt : Option String) (priceOpt : Option ℚ)
      (mc top10 : ℚ) (db : Ledger) :
      LedgerStep db (process_new_token s db mintOpt priceOpt mc top10).1
  | sweep (priceOf : String → Option ℚ) (mcOf : String → ℚ → ℚ) (db : Ledger) :
      LedgerStep db (monitor_multipliers_sweep priceOf mcOf db).1

theorem ledgerStep_mono (db db' : Ledger) (h : LedgerStep db db')
    (hnd : (db.map (fun x => x.mint)).Nodup) :
    (db'.map (fun x => x.mint)).Nodup
    ∧ ∀ m r, get_token db m = some r →
        ∃ r', get_token db' m = some r' ∧ r.last_multiple ≤ r'.last_multiple := by
  cases h with
  | admission s mintOpt priceOpt mc top10 =>
    cases mintOpt with
    | none => exact ⟨hnd, fun m r hget => ⟨r, hget, le_refl _⟩⟩
    | some mint =>
      by_cases h0 : (priceOpt.getD 0) ≤ 0
      · have hd : (process_new_token s db (some mint) priceOpt mc top10).1 = db := by
          simp only [process_new_token]
          rw [if_pos h0]
        rw [hd]
        exact ⟨hnd, fun m r hget => ⟨r, hget, le_refl _⟩⟩
      · by_cases h1 : mc < s.min_market_cap_usd
        · have hd : (process_new_token s db (some mint) priceOpt mc top10).1 = db := by
            simp only [process_new_token]
            rw [if_neg h0, if_pos h1]
          rw [hd]
          exact ⟨hnd, fun m r hget => ⟨r, hget, le_refl _⟩⟩
        · by_cases h2 : top10 > s.max_top10_holder_percent
          · have hd : (process_new_token s db (some mint) priceOpt mc top10).1 = db := by
              simp only [process_new_token]
              rw [if_neg h0, if_neg h1, if_pos h2]
            rw [hd]
            exact ⟨hnd, fun m r hget => ⟨r, hget, le_refl _⟩⟩
          · have hd : (process_new_token s db (some mint) priceOpt mc top10).1
                = upsert_token db mint "?" "?" mc := by
              simp only [process_new_token]
              rw [if_neg h0, if_neg h1, if_neg h2]
            rw [hd]
            refine ⟨upsert_mints_nodup db mint "?" "?" mc hnd, ?_⟩
            intro m r hget
            by_cases hm : m = mint
            · subst hm
              exact ⟨{ r with symbol := "?", name := "?" },
                upsert_get_present db m "?" "?" mc r hget, le_refl _⟩
            · refine ⟨r, ?_, le_refl _⟩
              rw [upsert_get_other db mint "?" "?" mc m hm]
              exact hget
  | sweep priceOf mcOf =>
    constructor
    · have hmints : (monitor_multipliers_sweep priceOf mcOf db).1.map (fun x => x.mint)
          = db.map (fun x => x.mint) := sweepGo_mints priceOf mcOf db db []
      rw [hmints]
      exact hnd
    · intro m r hget
      have hmem : r ∈ db := List.mem_of_find?_eq_some hget
      have hrm : r.mint = m := by simpa using List.find?_some hget
      have hrec := (sweep_record priceOf mcOf db r hnd hmem).2
      cases hs : scanRow (priceOf r.mint) (mcOf r.mint) r with
      | none =>
        rw [hs] at hrec
        refine ⟨r, ?_, le_refl _⟩
        rw [← hrm]
        exact hrec
      | some hm' =>
        rw [hs] at hrec
        refine ⟨{ r with last_multiple := hm'.1 }, ?_, ?_⟩
        · rw [← hrm]
          exact hrec
        · have hfired := scanRow_fired (priceOf r.mint) (mcOf r.mint) r hm' hs
          have h2 : r.last_multiple + 1 ≤ hm'.1 :=
            le_trans (le_max_left _ _) hfired
          show r.last_multiple ≤ hm'.1
          omega

/-- C4: under every sequence of ledger operations the program performs
(admission attempts and scanner sweeps), the `last_multiple` of a mint's
record never decreases — upsert leaves it untouched, and the scanner only
overwrites it with `hit ≥ max (last_multiple + 1) 2 > last_multiple`. -/
theorem last_multiple_monotone (db db' : Ledger) (m : String) (r r' : TokenRecord)
    (hnd : (db.map (fun x => x.mint)).Nodup)
    (hsteps : Relation.ReflTransGen LedgerStep db db')
    (h1 : get_token db m = some r) (h2 : get_token db' m = some r') :
    r.last_multiple ≤ r'.last_multiple := by
  revert h1
  revert hnd
  revert r
  induction hsteps using Relation.ReflTransGen.head_induction_on with
  | refl =>
    intro r hnd h1
    have he : some r = some r' := h1.symm.trans h2
    injection he with he'
    rw [he']
  | head hstep hrest ih =>
    intro r hnd h1
    obtain ⟨hnd', hmono⟩ := ledgerStep_mono _ _ hstep hnd
    obtain ⟨r'', hget'', hle⟩ := hmono m r h1
    exact le_trans hle (ih r'' hnd' hget'')

/-- C4 witness: one admission step over a ledger already holding the mint
(`last_multiple = 3`) leaves `last_multiple` at 3. -/
theorem last_multiple_monotone_witness :
    (3:ℤ) ≤ 3
    ∧ get_token (process_new_token ⟨15000, 20⟩ [⟨"m", "S", "N", 1000, 3⟩]
        (some "m") (some 1) 20000 10).1 "m" = some ⟨"m", "?", "?", 1000, 3⟩ := by
  constructor
  · exact last_multiple_monotone [⟨"m", "S", "N", 1000, 3⟩] _ "m"
      ⟨"m", "S", "N", 1000, 3⟩ ⟨"m", "?", "?", 1000, 3⟩ (by simp)
      (Relation.ReflTransGen.single
        (LedgerStep.admission ⟨15000, 20⟩ (some "m") (some 1) 20000 10
          [⟨"m", "S", "N", 1000, 3⟩]))
      rfl (by decide)
  · decide

/- ### Pool event filter (`solana_watcher._extract_pool_creation`) -/

/-- Substring test on character lists: Python's `needle in hay`. -/
def is_sub_chars (needle : List Char) : List Char → Bool
  | [] => needle.isPrefixOf []
  | c :: rest => needle.isPrefixOf (c :: rest) || is_sub_chars needle rest

/-- Python's `needle in hay` for strings (contiguous substring). -/
def contains_sub (hay needle : String) : Bool := is_sub_chars needle.data hay.data

/-- Python's `str.lower()`, character by character. -/
def str_lower (s : String) : String := ⟨s.data.map Char.toLower⟩

/-- The fixed keyword set of the filter. -/
def pool_keywords : List String := ["initialize", "create_pool", "init_pool"]

/-- The per-line test of `_extract_pool_creation`:
`"initialize" in line.lower() or "create_pool" in line.lower() or
"init_pool" in line.lower()`. -/
def line_matches (line : String) : Bool :=
  contains_sub (str_lower line) "initialize"
  || contains_sub (str_lower line) "create_pool"
  || contains_sub (str_lower line) "init_pool"

/-- An element of the JSON `logs` array; the code only treats entries that
are strings (`isinstance(line, str)`). -/
inductive LogEntry where
  | str (s : String)
  | nonstr

/-- The guarded test: non-string entries never match. -/
def entry_matches : LogEntry → Bool
  | .str s => line_matches s
  | .nonstr => false

/-- The fields of a `logsNotification` event that the filter reads. -/
structure RawLogsEvent where
  logs : List LogEntry
  signature : Option String

/-- The dict `_extract_pool_creation` returns on a match (minus the raw
event payload it also carries). -/
structure PoolCreation where
  dex_paid : Bool
  signature : Option String
  deriving DecidableEq

/-- Embeds `solana_watcher._extract_pool_creation`: scan the log lines in order and
return the pool-creation decision on the first line containing a keyword. -/
def extract_pool_creation (e : RawLogsEvent) : Option PoolCreation :=
  match e.logs.find? entry_matches with
  | some _ => some { dex_paid := true, signature := e.signature }
  | none => none

/-- C5: the filter answers not-a-pool-event exactly on events none of whose
string log lines contains a keyword of `{initialize, create_pool,
init_pool}` case-insensitively, and answers is-pool-creation carrying the
event's signature as soon as one line contains one keyword. -/
theorem extract_pool_creation_spec (e : RawLogsEvent) :
    ((∀ s, LogEntry.str s ∈ e.logs →
        ∀ k ∈ pool_keywords, contains_sub (str_lower s) k = false) →
      extract_pool_creation e = none)
    ∧ ((∃ s, LogEntry.str s ∈ e.logs
        ∧ ∃ k ∈ pool_keywords, contains_sub (str_lower s) k = true) →
      extract_pool_creation e
        = some { dex_paid := true, signature := e.signature }) := by
  constructor
  · intro hnone
    have hall : ∀ l ∈ e.logs, ¬ entry_matches l = true := by
      intro l hl
      cases l with
      | nonstr => simp [entry_matches]
      | str s =>
        have h1 := hnone s hl "initialize" (by simp [pool_keywords])
        have h2 := hnone s hl "create_pool" (by simp [pool_keywords])
        have h3 := hnone s hl "init_pool" (by simp [pool_keywords])
        simp [entry_matches, line_matches, h1, h2, h3]
    unfold extract_pool_creation
    rw [List.find?_eq_none.mpr hall]
  · rintro ⟨s, hs, k, hk, hcontains⟩
    unfold extract_pool_creation
    cases hfind : e.logs.find? entry_matches with
    | some l => rfl
    | none =>
      exfalso
      have hall := List.find?_eq_none.mp hfind
      have := hall (LogEntry.str s) hs
      have hsm : line_matches s = true := by
        rcases (by simpa [pool_keywords] using hk :
            k = "initialize" ∨ k = "create_pool" ∨ k = "init_pool")
          with h | h | h <;>
          · subst h
            simp [line_matches, hcontains]
      exact this (by simpa [entry_matches] using hsm)

/-- C5 witness: `"Program log: initialize2"` (with a non-string entry in the
array) is a pool creation carrying the signature; a log with only swap lines
is not. -/
theorem extract_pool_creation_spec_witness :
    extract_pool_creation ⟨[LogEntry.nonstr, LogEntry.str "Program log: Initialize2 pool"],
        some "SIG1"⟩ = some ⟨true, some "SIG1"⟩
    ∧ extract_pool_creation ⟨[LogEntry.str "Program log: swap"], some "SIG2"⟩ = none := by
  constructor
  · exact (extract_pool_creation_spec
      ⟨[LogEntry.nonstr, LogEntry.str "Program log: Initialize2 pool"], some "SIG1"⟩).2
      ⟨"Program log: Initialize2 pool", by simp, "initialize",
        by simp [pool_keywords], by decide⟩
  · exact (extract_pool_creation_spec
      ⟨[LogEntry.str "Program log: swap"], some "SIG2"⟩).1
      (by
        intro s hs k hk
        simp at hs
        subst hs
        rcases (by simpa [pool_keywords] using hk :
            k = "initialize" ∨ k = "create_pool" ∨ k = "init_pool")
          with h | h | h <;>
          · subst h
            decide)

/- ### Mint resolver (`metrics.derive_base_mint_from_tx`) -/

theorem find?_eq_some_first {α : Type} (p : α → Bool) (l : List α) (a : α) :
    l.find? p = some a ↔
      ∃ (i : ℕ) (hi : i < l.length), l.get ⟨i, hi⟩ = a ∧ p a = true
        ∧ ∀ (j : ℕ) (hj : j < l.length), j < i → p (l.get ⟨j, hj⟩) = false := by
  induction l with
  | nil => simp
  | cons x xs ih =>
    cases hx : p x with
    | true =>
      rw [List.find?_cons_of_pos _ hx]
      constructor
      · intro h
        injection h with h
        subst h
        exact ⟨0, by simp, rfl, hx, fun j hj hj0 => absurd hj0 (Nat.not_lt_zero j)⟩
      · rintro ⟨i, hi, hget, hpa, hfirst⟩
        cases i with
        | zero => exact congrArg some hget
        | succ k =>
          have h0 : p ((x :: xs).get ⟨0, by simp⟩) = false :=
            hfirst 0 (by simp) (Nat.succ_pos k)
          rw [show (x :: xs).get ⟨0, by simp⟩ = x from rfl, hx] at h0
          cases h0
    | false =>
      rw [List.find?_cons_of_neg _ (by simp [hx])]
      rw [ih]
      constructor
      · rintro ⟨i, hi, hget, hpa, hfirst⟩
        refine ⟨i + 1, by simpa using Nat.succ_lt_succ hi, hget, hpa, ?_⟩
        intro j hj hji
        cases j with
        | zero => exact hx
        | succ k =>
          have hk : k < xs.length := by simpa using Nat.lt_of_succ_lt_succ hj
          exact hfirst k hk (Nat.lt_of_succ_lt_succ hji)
      · rintro ⟨i, hi, hget, hpa, hfirst⟩
        cases i with
        | zero =>
          exfalso
          rw [show (x :: xs).get ⟨0, hi⟩ = x from rfl] at hget
          rw [hget, hpa] at hx
          cases hx
        | succ k =>
          have hk : k < xs.length := by simpa using Nat.lt_of_succ_lt_succ hi
          refine ⟨k, hk, hget, hpa, ?_⟩
          intro j hj hjk
          exact hfirst (j + 1) (by simpa using Nat.succ_lt_succ hj) (Nat.succ_lt_succ hjk)

/-- One entry of `meta.pre_token_balances` / `meta.post_token_balances`;
the resolver only reads the `mint` field. -/
structure TokenBalance where
  mint : String

/-- The transaction metadata object (`tx.value.transaction.meta`); the
balance arrays may be absent (`or []` in the code). -/
structure TxMeta where
  pre_token_balances : Option (List TokenBalance)
  post_token_balances : Option (List TokenBalance)

/-- Models `tx.value`: `none` when the transaction cannot be found. -/
structure TxResponse where
  meta : Option TxMeta

/-- Embeds `metrics.derive_base_mint_from_tx`: diff the pre/post token-balance
mint sets and return the first post-balance mint absent from the pre set. -/
def derive_base_mint_from_tx (tx : Option TxResponse) : Option String :=
  match tx with
  | none => none
  | some v =>
    match v.meta with
    | none => none
    | some meta =>
      let post_balances := meta.post_token_balances.getD []
      let pre_balances := meta.pre_token_balances.getD []
      let pre_mints := pre_balances.map (fun b => b.mint)
      match post_balances.find? (fun b => !(pre_mints.contains b.mint)) with
      | some b => some b.mint
      | none => none

/-- C6: with metadata available, the resolver returns `some m` exactly when
`m` is the mint of the first post-token-balance entry (in listing order)
whose mint is not among the pre-token-balance mints; it returns `none` when
every post mint already occurs pre, and in particular when the post and pre
mint sets are equal. -/
theorem derive_base_mint_spec (meta : TxMeta) :
    (∀ m : String,
      derive_base_mint_from_tx (some ⟨some meta⟩) = some m ↔
        ∃ (i : ℕ) (hi : i < (meta.post_token_balances.getD []).length),
          ((meta.post_token_balances.getD []).get ⟨i, hi⟩).mint = m
          ∧ m ∉ (meta.pre_token_balances.getD []).map (fun b => b.mint)
          ∧ ∀ (j : ℕ) (hj : j < (meta.post_token_balances.getD []).length), j < i →
              ((meta.post_token_balances.getD []).get ⟨j, hj⟩).mint
                ∈ (meta.pre_token_balances.getD []).map (fun b => b.mint))
    ∧ ((∀ b ∈ meta.post_token_balances.getD [],
          b.mint ∈ (meta.pre_token_balances.getD []).map (fun b => b.mint)) →
        derive_base_mint_from_tx (some ⟨some meta⟩) = none)
    ∧ ((∀ m : String,
          m ∈ (meta.post_token_balances.getD []).map (fun b => b.mint) ↔
          m ∈ (meta.pre_token_balances.getD []).map (fun b => b.mint)) →
        derive_base_mint_from_tx (some ⟨some meta⟩) = none) := by
  have hshape : derive_base_mint_from_tx (some ⟨some meta⟩)
      = match (meta.post_token_balances.getD []).find?
          (fun b => !(((meta.pre_token_balances.getD []).map
            (fun b => b.mint)).contains b.mint)) with
        | some b => some b.mint
        | none => none := rfl
  have hmain : ∀ m : String,
      derive_base_mint_from_tx (some ⟨some meta⟩) = some m ↔
        ∃ (i : ℕ) (hi : i < (meta.post_token_balances.getD []).length),
          ((meta.post_token_balances.getD []).get ⟨i, hi⟩).mint = m
          ∧ m ∉ (meta.pre_token_balances.getD []).map (fun b => b.mint)
          ∧ ∀ (j : ℕ) (hj : j < (meta.post_token_balances.getD []).length), j < i →
              ((meta.post_token_balances.getD []).get ⟨j, hj⟩).mint
                ∈ (meta.pre_token_balances.getD []).map (fun b => b.mint) := by
    intro m
    rw [hshape]
    constructor
    · intro h
      cases hfind : (meta.post_token_balances.getD []).find?
          (fun b => !(((meta.pre_token_balances.getD []).map
            (fun b => b.mint)).contains b.mint)) with
      | none => rw [hfind] at h; cases h
      | some b =>
        rw [hfind] at h
        injection h with h
        obtain ⟨i, hi, hget, hpb, hfirst⟩ := (find?_eq_some_first _ _ _).mp hfind
        refine ⟨i, hi, by rw [hget, h], ?_, ?_⟩
        · rw [← h]
          simpa using hpb
        · intro j hj hji
          have := hfirst j hj hji
          simpa using this
    · rintro ⟨i, hi, hget, hpre, hfirst⟩
      have hfind : (meta.post_token_balances.getD []).find?
          (fun b => !(((meta.pre_token_balances.getD []).map
            (fun b => b.mint)).contains b.mint))
          = some ((meta.post_token_balances.getD []).get ⟨i, hi⟩) := by
        rw [find?_eq_some_first]
        refine ⟨i, hi, rfl, ?_, ?_⟩
        · rw [hget]
          simpa using hpre
        · intro j hj hji
          simpa using hfirst j hj hji
      rw [hfind]
      show some (((meta.post_token_balances.getD []).get ⟨i, hi⟩).mint) = some m
      rw [hget]
  refine ⟨hmain, ?_, ?_⟩
  · intro hall
    rw [hshape]
    have : (meta.post_token_balances.getD []).find?
        (fun b => !(((meta.pre_token_balances.getD []).map
          (fun b => b.mint)).contains b.mint)) = none := by
      rw [List.find?_eq_none]
      intro b hb
      simpa using hall b hb
    rw [this]
  · intro hsets
    rw [hshape]
    have : (meta.post_token_balances.getD []).find?
        (fun b => !(((meta.pre_token_balances.getD []).map
          (fun b => b.mint)).contains b.mint)) = none := by
      rw [List.find?_eq_none]
      intro b hb
      have : b.mint ∈ (meta.pre_token_balances.getD []).map (fun b => b.mint) :=
        (hsets b.mint).mp (List.mem_map_of_mem _ hb)
      simpa using this
    rw [this]

/-- C6 witness: post balances `[USDC, NEW]` against pre balances `[USDC]`
resolve to `NEW` (first new mint in listing order); equal pre/post sets
resolve to nothing. -/
theorem derive_base_mint_spec_witness :
    derive_base_mint_from_tx
      (some ⟨some ⟨some [⟨"USDC"⟩], some [⟨"USDC"⟩, ⟨"NEW"⟩]⟩⟩) = some "NEW"
    ∧ derive_base_mint_from_tx
      (some ⟨some ⟨some [⟨"USDC"⟩], some [⟨"USDC"⟩]⟩⟩) = none := by
  constructor
  · exact ((derive_base_mint_spec ⟨some [⟨"USDC"⟩], some [⟨"USDC"⟩, ⟨"NEW"⟩]⟩).1
      "NEW").mpr
      ⟨1, by decide, rfl, by decide, by
        intro j hj hji
        have hj0 : j = 0 := by omega
        subst hj0
        show ("USDC" : String) ∈ List.map (fun b : TokenBalance => b.mint) [⟨"USDC"⟩]
        simp⟩
  · exact (derive_base_mint_spec ⟨some [⟨"USDC"⟩], some [⟨"USDC"⟩]⟩).2.2
      (by
        intro m
        constructor
        · intro hm
          simpa using hm
        · intro hm
          simpa using hm)

/- ### Holder concentration (`metrics.get_top_holders_percent`) -/

/-- Embeds `metrics.get_top_holders_percent`: `amounts` are the integer balances of
`get_token_largest_accounts` in the order listed by the RPC; the code sums
the first `top_n` (default 10) of them and divides by the total. -/
def get_top_holders_percent (amounts : List ℤ) (top_n : ℕ) : ℚ :=
  let total_amount := amounts.sum
  if total_amount = 0 then 0
  else
    let top_sum := (amounts.take top_n).sum
    ((top_sum : ℚ) / (total_amount : ℚ)) * 100

/-- C7: the top-10 concentration is (sum of the first `top_n` listed
amounts ÷ sum of all amounts) × 100, and it is 0 by definition when the
total is 0 — the division is only taken on a non-zero total. -/
theorem get_top_holders_percent_spec (amounts : List ℤ) (top_n : ℕ) :
    (amounts.sum ≠ 0 →
      get_top_holders_percent amounts top_n
        = (((amounts.take top_n).sum : ℚ) / (amounts.sum : ℚ)) * 100)
    ∧ (amounts.sum = 0 → get_top_holders_percent amounts top_n = 0) := by
  constructor
  · intro h
    unfold get_top_holders_percent
    rw [if_neg h]
  · intro h
    unfold get_top_holders_percent
    rw [if_pos h]

/-- C7 witness: the spec's example list gives (260 ÷ 260) × 100 = 100,
and the all-zero list gives 0. -/
theorem get_top_holders_percent_spec_witness :
    ([100, 50, 30, 20, 10, 10, 10, 10, 10, 10, 0, 0] : List ℤ).sum ≠ 0
    ∧ get_top_holders_percent [100, 50, 30, 20, 10, 10, 10, 10, 10, 10, 0, 0] 10
        = 100
    ∧ get_top_holders_percent [0, 0] 10 = 0 := by
  refine ⟨by decide, ?_, ?_⟩
  · rw [(get_top_holders_percent_spec
      [100, 50, 30, 20, 10, 10, 10, 10, 10, 10, 0, 0] 10).1 (by decide)]
    simp only [List.take_succ_cons, List.take_zero, List.sum_cons, List.sum_nil]
    norm_num
  · exact (get_top_holders_percent_spec [0, 0] 10).2 (by decide)

/- ### Admission notification template (`main.FILTER_MSG_TEMPLATE`) -/

/-- Embeds `main.FILTER_MSG_TEMPLATE.format(mint=…, mc=…, top10=…, x=…, web=…)`:
the template with its five placeholders substituted.  The numeric
placeholders `{mc:.2f}` and `{top10:.2f}` receive the already-formatted
2-decimal strings. -/
def FILTER_MSG_TEMPLATE_render (mint mc top10 x web : String) : String :=
  "CA: " ++ mint ++ "\n"
  ++ "├ 📊 MC: $" ++ mc ++ "K\n"
  ++ "├ 💬 Replies: 0\n"
  ++ "├ 👤 DEV:\n"
  ++ "│        Tokens: 1 | KoTH: 0 | Complete: 0\n"
  ++ "├ 🌐 Socials: X (" ++ x ++ ") | WEB (" ++ web ++ ")\n"
  ++ "├ 🔊 Volume: ?\n"
  ++ "├ 📈 ATH: ?\n"
  ++ "├ 🧶 Bonding Curve: ?\n"
  ++ "├ 🔫 Snipers: ?\n"
  ++ "├ 👥 Holders: ?\n"
  ++ "├ 👤 Dev hold: 0%\n"
  ++ "└ 🏆 Top 10 Holders: Σ " ++ top10 ++ "%\n"
  ++ "DEX PAID"

/-- Modelled from the spec: the §6 "Notification message (pool admission)"
template exactly as the spec prints it, with the three substituted values
(mint, 2-decimal market cap in thousands, 2-decimal top-10 percent). -/
def spec_admission_template (mint mc top10 : String) : String :=
  "CA: " ++ mint ++ "\n"
  ++ "├ MC: $" ++ mc ++ "K\n"
  ++ "├ Replies: 0\n"
  ++ "├ DEV:\n"
  ++ "│        Tokens: 1 | KoTH: 0 | Complete: 0\n"
  ++ "├ Socials: X (n/a) | WEB (n/a)\n"
  ++ "├ Volume: ?\n"
  ++ "├ ATH: ?\n"
  ++ "├ Bonding Curve: ?\n"
  ++ "├ Snipers: ?\n"
  ++ "├ Holders: ?\n"
  ++ "├ Dev hold: 0%\n"
  ++ "└ Top 10 Holders: Σ " ++ top10 ++ "%\n"
  ++ "DEX PAID"

/-- C9 counterexample: the message the code sends is not the spec's template
character for character — the code decorates every branch line with an emoji
(`├ 📊 MC:` instead of `├ MC:`, and so on). -/
theorem admission_template_counterexample :
    FILTER_MSG_TEMPLATE_render "MINT" "15.00" "20.00" "n/a" "n/a"
      ≠ spec_admission_template "MINT" "15.00" "20.00" := by
  decide

/-- Modelled from the spec, amended as the counterexample forces: the §6
admission template with the emoji decoration the code places after each
`├`/`└` branch marker (📊, 💬, 👤, 🌐, 🔊, 📈, 🧶, 🔫, 👥, 👤, 🏆). -/
def spec_admission_template_emoji (mint mc top10 : String) : String :=
  "CA: " ++ mint ++ "\n"
  ++ "├ 📊 MC: $" ++ mc ++ "K\n"
  ++ "├ 💬 Replies: 0\n"
  ++ "├ 👤 DEV:\n"
  ++ "│        Tokens: 1 | KoTH: 0 | Complete: 0\n"
  ++ "├ 🌐 Socials: X (n/a) | WEB (n/a)\n"
  ++ "├ 🔊 Volume: ?\n"
  ++ "├ 📈 ATH: ?\n"
  ++ "├ 🧶 Bonding Curve: ?\n"
  ++ "├ 🔫 Snipers: ?\n"
  ++ "├ 👥 Holders: ?\n"
  ++ "├ 👤 Dev hold: 0%\n"
  ++ "└ 🏆 Top 10 Holders: Σ " ++ top10 ++ "%\n"
  ++ "DEX PAID"

/-- C9 amended: the pool-admission notification equals, character for
character, the spec's template with the code's emoji branch decorations
inserted, for every substituted mint, market-cap string and top-10 string
(the socials placeholders are always filled with `n/a`). -/
theorem admission_template_amended (mint mc top10 : String) :
    FILTER_MSG_TEMPLATE_render mint mc top10 "n/a" "n/a"
      = spec_admission_template_emoji mint mc top10 := by
  unfold FILTER_MSG_TEMPLATE_render spec_admission_template_emoji
  simp [String.append_assoc]
